import Mathlib

/-!
Verification of the diagramatics core (`src/unnamed/part_000`, the Diagram/Path
tree module).

The development has two layers:

* a pure value-level embedding of `Path`, `Diagram` and their operations
  (`translate`, `position`, `rotate`, `bounding_box`, `polygon`,
  `get_parametric_point`, `add_childs`, `add_paths`), used for the functional
  claims; and
* a heap embedding (`Heap`, `DObj`, `PObj`) in which every object lives at a
  numeric reference and the source's methods are interpreted as fuel-bounded
  state transformers (`copyD`, `fillD`, `strokeD`, `translateD`, `positionD`,
  `rotateD`).  This layer makes mutation and aliasing observable, which is what
  the immutability claim and the fill/stroke recursion are about.

The `Vector2` class lives in `linear_algebra.js`, which is not part of the
sources; its operations are modelled from the spec (see `Vec2` below), and
rotation about the origin is kept as an abstract parameter `R` throughout.

JavaScript numbers are modelled as exact rationals, and the `Infinity` /
`-Infinity` sentinels used by `bounding_box` are modelled by the extended
rationals `E` with top and bottom elements.
-/

namespace Diagramatics

/-- Modelled from the spec: `Vector2` (from `linear_algebra.js`, not under
`src/`) is an "immutable 2D point/vector with add, subtract, scale,
rotate-about-origin" (spec section 2).  `add`, `sub` and `scale` are the
standard componentwise operations; rotate-about-origin is kept abstract as a
parameter `R : ℚ → Vec2 → Vec2` wherever rotation is interpreted. -/
structure Vec2 where
  x : ℚ
  y : ℚ
deriving DecidableEq, Repr

def Vec2.add (a b : Vec2) : Vec2 := ⟨a.x + b.x, a.y + b.y⟩

def Vec2.sub (a b : Vec2) : Vec2 := ⟨a.x - b.x, a.y - b.y⟩

def Vec2.scale (a : Vec2) (s : ℚ) : Vec2 := ⟨a.x * s, a.y * s⟩

/-- The `DiagramType` enum of the source: a node is a polygon leaf, a curve
leaf, or a composite diagram (group). -/
inductive DiagramType where
  | Polygon
  | Curve
  | Diagram
deriving DecidableEq, Repr

/-- Extended rationals with `+Infinity` (top) and `-Infinity` (bottom), the
value space of the `Math.min` / `Math.max` accumulators in `bounding_box`. -/
abbrev E : Type := WithBot (WithTop ℚ)

/-- Embedding of a finite JavaScript number into the extended rationals. -/
def qE (q : ℚ) : E := ((q : WithTop ℚ) : E)

/-- A bounding box `[min corner, max corner]` with extended coordinates,
as returned by `Diagram.bounding_box`. -/
abbrev BBox : Type := (E × E) × (E × E)

/-- The accumulator start value of `bounding_box`:
`minx = miny = Infinity`, `maxx = maxy = -Infinity` (source lines 137-138). -/
def emptyBox : BBox := ((⊤, ⊤), (⊥, ⊥))

/-- Componentwise min/max of two boxes, one `Math.min`/`Math.max` update step
of the `bounding_box` accumulators. -/
def unionBox (a b : BBox) : BBox :=
  ((min a.1.1 b.1.1, min a.1.2 b.1.2), (max a.2.1 b.2.1, max a.2.2 b.2.2))

/-- Extending a box by a single point, the inner loop body of the leaf cases
of `bounding_box` (source lines 143-148). -/
def boxOfPoints (pts : List Vec2) : BBox :=
  pts.foldl
    (fun acc p =>
      ((min acc.1.1 (qE p.x), min acc.1.2 (qE p.y)),
       (max acc.2.1 (qE p.x), max acc.2.2 (qE p.y))))
    emptyBox

/-- Assignment `m[k] = v` on a JavaScript object represented as an ordered
association list: an existing key keeps its position and gets the new value,
a new key is appended at the end. -/
def insertJS {α : Type} : List (String × α) → String → α → List (String × α)
  | [], k, v => [(k, v)]
  | (k', v') :: rest, k, v =>
      if k' = k then (k, v) :: rest else (k', v') :: insertJS rest k v

/-- Property read `m[k]` on a JavaScript object represented as an ordered
association list. -/
def lookupJS {α : Type} : List (String × α) → String → Option α
  | [], _ => none
  | (k, v) :: rest, n => if k = n then some v else lookupJS rest n

/-- The value paired with the last occurrence of a name in a list of
(name, value) pairs, if any; used to state the last-write-wins policy. -/
def lastVal {α : Type} : List (String × α) → String → Option α
  | [], _ => none
  | (k, v) :: rest, n =>
      match lastVal rest n with
      | some w => some w
      | none => if k = n then some v else none

/-- The loops of `add_childs` / `add_paths` (source lines 55 and 62):
`for (let i in items) { m[names[i]] = items[i] }`.  When the names list is
shorter than the items list, JavaScript reads `names[i]` as `undefined` and
coerces it to the property key `"undefined"`. -/
def assignJS {α : Type} : List (String × α) → List α → List String → List (String × α)
  | m, [], _ => m
  | m, v :: items, [] => assignJS (insertJS m "undefined" v) items []
  | m, v :: items, n :: names => assignJS (insertJS m n v) items names

/-- The `Path` class: an ordered list of points (source line 249-251). -/
structure Path where
  points : List Vec2
deriving DecidableEq, Repr

/-- Embedding of `Path.get_parametric_point` (source lines 260-267): reject
paths of more than 2 points with the unsupported-operation error, otherwise
interpolate linearly between the first and the last point.  On an empty points
array the source crashes with a TypeError (`points[0]` is `undefined`), which
is modelled by a distinct error value. -/
def Path.get_parametric_point (p : Path) (t : ℚ) : Except String Vec2 :=
  if 2 < p.points.length then
    Except.error "Get Parametric Point For n>2 is Not Implemented yet"
  else
    match p.points.getLast?, p.points.head? with
    | some e, some s => Except.ok (s.add ((e.sub s).scale t))
    | _, _ => Except.error "TypeError: undefined has no properties"

/-- Embedding of `Path.translate` (source lines 280-285): `copy()` makes a
fresh value-equal path, then every point is shifted by `v`; the value-level
net effect is the pointwise shift. -/
def Path.translate (p : Path) (v : Vec2) : Path :=
  ⟨p.points.map (fun q => q.add v)⟩

/-- Embedding of `Path.rotate` (source lines 292-297): every point `q` becomes
`q.sub(pivot).rotate(angle).add(pivot)`, with rotation about the origin kept
abstract as `R`. -/
def Path.rotate (R : ℚ → Vec2 → Vec2) (p : Path) (angle : ℚ) (pivot : Vec2) : Path :=
  ⟨p.points.map (fun q => (R angle (q.sub pivot)).add pivot)⟩

/-- The `Diagram` class (source lines 41-52): a tagged tree node with named
children, named paths, an origin, and optional stroke/fill colors.  A freshly
constructed node has empty maps, origin `(0,0)` and unset colors. -/
inductive Diagram where
  | mk (type : DiagramType) (children : List (String × Diagram))
       (paths : List (String × Path)) (origin : Vec2)
       (color_stroke : Option String) (color_fill : Option String)

def Diagram.type : Diagram → DiagramType
  | .mk t _ _ _ _ _ => t

def Diagram.childrenList : Diagram → List (String × Diagram)
  | .mk _ cs _ _ _ _ => cs

def Diagram.pathsList : Diagram → List (String × Path)
  | .mk _ _ ps _ _ _ => ps

def Diagram.origin : Diagram → Vec2
  | .mk _ _ _ o _ _ => o

def Diagram.color_stroke : Diagram → Option String
  | .mk _ _ _ _ s _ => s

def Diagram.color_fill : Diagram → Option String
  | .mk _ _ _ _ _ f => f

/-- Embedding of `Diagram.add_childs` (source lines 53-56): assign each child
to `children[names[i]]` in order; collisions are not checked. -/
def Diagram.add_childs : Diagram → List Diagram → List String → Diagram
  | .mk t cs ps o s f, childs, names => .mk t (assignJS cs childs names) ps o s f

/-- Embedding of `Diagram.add_paths` (source lines 57-63): a composite
diagram rejects paths with an error, otherwise assign each path to
`paths[names[i]]` in order; collisions are not checked. -/
def Diagram.add_paths : Diagram → List Path → List String → Except String Diagram
  | .mk t cs ps o s f, paths, names =>
      if t = DiagramType.Diagram then Except.error "Diagram cannot have paths"
      else Except.ok (.mk t cs (assignJS ps paths names) o s f)

mutual
/-- Embedding of `Diagram.translate` (source lines 181-193): shift the origin
by `v` and recursively translate every child and every path.  The source
copies first and then mutates the copy; the value-level net effect is the
recursive rebuild below. -/
def Diagram.translate : Diagram → Vec2 → Diagram
  | .mk t cs ps o s f, v =>
      .mk t (translateChilds cs v)
        (ps.map (fun np => (np.1, np.2.translate v))) (o.add v) s f

/-- The child loop of `Diagram.translate` (source lines 185-187):
`newd.children[c] = newd.children[c].translate(v)`. -/
def translateChilds : List (String × Diagram) → Vec2 → List (String × Diagram)
  | [], _ => []
  | (n, c) :: rest, v => (n, c.translate v) :: translateChilds rest v
end

/-- Embedding of `Diagram.position` (source lines 199-203):
`dv = v - origin`, then `translate(dv)`. -/
def Diagram.position (d : Diagram) (v : Vec2) : Diagram :=
  d.translate (v.sub d.origin)

mutual
/-- Embedding of `Diagram.rotate` (source lines 210-224): when the pivot is
`undefined` it defaults to the node's own origin; every child and every path
is then rotated about that same pivot (the recursive calls receive the
now-defined pivot). -/
def Diagram.rotate (R : ℚ → Vec2 → Vec2) : Diagram → ℚ → Option Vec2 → Diagram
  | .mk t cs ps o s f, angle, pivot =>
      let piv := pivot.getD o
      .mk t (rotateChilds R cs angle piv)
        (ps.map (fun np => (np.1, np.2.rotate R angle piv))) o s f

/-- The child loop of `Diagram.rotate` (source lines 216-218):
`newd.children[c] = newd.children[c].rotate(angle, pivot)` with the pivot
already defined. -/
def rotateChilds (R : ℚ → Vec2 → Vec2) :
    List (String × Diagram) → ℚ → Vec2 → List (String × Diagram)
  | [], _, _ => []
  | (n, c) :: rest, angle, piv =>
      (n, c.rotate R angle (some piv)) :: rotateChilds R rest angle piv
end

mutual
/-- Embedding of `Diagram.bounding_box` (source lines 136-175): a Polygon or
Curve leaf folds the min/max accumulators over every point of every path (the
two leaf branches of the source are identical); a composite diagram folds the
accumulators over the children's recursively computed boxes.  The accumulators
start at `(Infinity, Infinity, -Infinity, -Infinity)`. -/
def Diagram.bounding_box : Diagram → BBox
  | .mk t cs ps _ _ _ =>
      match t with
      | DiagramType.Diagram => boundChilds cs emptyBox
      | _ => boxOfPoints ((ps.map (fun np => np.2.points)).flatten)

/-- The child loop of the composite case of `bounding_box` (source lines
163-170), folding the accumulator through the children in order. -/
def boundChilds : List (String × Diagram) → BBox → BBox
  | [], acc => acc
  | (_, c) :: rest, acc => boundChilds rest (unionBox acc c.bounding_box)
end

mutual
/-- All nodes of a diagram tree: the node itself followed by all nodes of its
children, used to state properties of "every descendant". -/
def Diagram.allSubs : Diagram → List Diagram
  | .mk t cs ps o s f => .mk t cs ps o s f :: allSubsChilds cs

def allSubsChilds : List (String × Diagram) → List Diagram
  | [] => []
  | (_, c) :: rest => c.allSubs ++ allSubsChilds rest
end

mutual
/-- All path points stored anywhere in a diagram tree (own paths first, then
the children's points, recursively). -/
def Diagram.allPoints : Diagram → List Vec2
  | .mk _ cs ps _ _ _ => (ps.map (fun np => np.2.points)).flatten ++ allPointsChilds cs

def allPointsChilds : List (String × Diagram) → List Vec2
  | [] => []
  | (_, c) :: rest => c.allPoints ++ allPointsChilds rest
end

/-- The consecutive-point segments built by `polygon` (source lines 310-312):
`len(points)-1` two-point paths, with no closing segment from the last point
back to the first. -/
def segPaths (points : List Vec2) : List Path :=
  (points.zip points.tail).map (fun ab => Path.mk [ab.1, ab.2])

/-- The default path names of `polygon` (source lines 315-316):
`path0, path1, ...`, one per segment. -/
def defaultNames (k : Nat) : List String :=
  (List.range k).map (fun i => "path" ++ toString i)

/-- The effective path names of `polygon` (source lines 319-320): a prefix of
the default names, of length `min(defaults, names)`, is overridden by the
supplied names. -/
def finalNames (points : List Vec2) (names : List String) : List String :=
  let dn := defaultNames (segPaths points).length
  let imax := min dn.length names.length
  names.take imax ++ dn.drop imax

/-- Embedding of the `polygon` factory (source lines 306-326): assert at least
3 points, build the consecutive segments, name them, and attach them to a
fresh Polygon node. -/
def polygon (points : List Vec2) (names : List String) : Except String Diagram :=
  if 3 ≤ points.length then
    (Diagram.mk DiagramType.Polygon [] [] ⟨0, 0⟩ none none).add_paths
      (segPaths points) (finalNames points names)
  else Except.error "Polygon must have at least 3 points"

/-! ## Heap embedding

Objects live at numeric references in a heap; methods are fuel-bounded state
transformers returning `none` when the fuel runs out.  This layer makes the
source's mutation discipline (deep copy, then mutate only the copy) and its
one deviation (the discarded recursive `fill`/`stroke` results on composite
nodes) observable. -/

/-- A `Diagram` object in the heap: same fields as the class, but children and
paths are references. -/
structure DObj where
  type : DiagramType
  children : List (String × Nat)
  paths : List (String × Nat)
  origin : Vec2
  color_stroke : Option String
  color_fill : Option String
deriving DecidableEq, Repr

/-- A `Path` object in the heap. -/
structure PObj where
  points : List Vec2
deriving DecidableEq, Repr

/-- The heap: diagram objects and path objects, addressed by list index. -/
structure Heap where
  ds : List DObj
  ps : List PObj
deriving DecidableEq, Repr

def getD (h : Heap) (r : Nat) : Option DObj := h.ds[r]?

def getP (h : Heap) (r : Nat) : Option PObj := h.ps[r]?

/-- Allocation of a fresh diagram object at the next free reference. -/
def allocD (h : Heap) (o : DObj) : Heap × Nat := (⟨h.ds ++ [o], h.ps⟩, h.ds.length)

/-- Allocation of a fresh path object at the next free reference. -/
def allocP (h : Heap) (p : PObj) : Heap × Nat := (⟨h.ds, h.ps ++ [p]⟩, h.ps.length)

/-- Overwriting the diagram object stored at a reference. -/
def setD (h : Heap) (r : Nat) (o : DObj) : Heap := ⟨h.ds.set r o, h.ps⟩

/-- Iterating a non-recursive path action over a paths map, rebuilding the
map with the returned references (the path loops of `copy`, `translate` and
`rotate`). -/
def mapPathsH (act : Heap → Nat → Option (Heap × Nat)) :
    Heap → List (String × Nat) → Option (Heap × List (String × Nat))
  | h, [] => some (h, [])
  | h, (n, r) :: rest => do
      let (h1, r1) ← act h r
      let (h2, rest1) ← mapPathsH act h1 rest
      some (h2, (n, r1) :: rest1)

/-- Heap version of `Path.copy` (source lines 269-274): allocate a fresh path
object whose points are fresh value-equal vectors. -/
def copyPathH (h : Heap) (r : Nat) : Option (Heap × Nat) := do
  let p ← getP h r
  some (allocP h ⟨p.points.map (fun q => ⟨q.x, q.y⟩)⟩)

/-- Heap version of `Path.translate` (source lines 280-285): copy, then remap
the copy's points; the net effect is one fresh object with shifted points. -/
def translatePathH (v : Vec2) (h : Heap) (r : Nat) : Option (Heap × Nat) := do
  let p ← getP h r
  some (allocP h ⟨p.points.map (fun q => q.add v)⟩)

/-- Heap version of `Path.rotate` (source lines 292-297). -/
def rotatePathH (R : ℚ → Vec2 → Vec2) (angle : ℚ) (piv : Vec2)
    (h : Heap) (r : Nat) : Option (Heap × Nat) := do
  let p ← getP h r
  some (allocP h ⟨p.points.map (fun q => (R angle (q.sub piv)).add piv)⟩)

mutual
/-- Heap version of `Diagram.copy` (source lines 68-86).  The source
serializes and reparses the whole object (giving a structure-equal object
graph with no shared references) and then re-copies every child and path;
the net effect is the bottom-up deep copy below, which only allocates and
never overwrites existing objects. -/
def copyD : Nat → Heap → Nat → Option (Heap × Nat)
  | 0, _, _ => none
  | fuel + 1, h, r => do
      let o ← getD h r
      let (h1, cs) ← copyChilds fuel h o.children
      let (h2, ps2) ← mapPathsH copyPathH h1 o.paths
      some (allocD h2 (DObj.mk o.type cs ps2 o.origin o.color_stroke o.color_fill))

/-- The child loop of `Diagram.copy` (source lines 76-79). -/
def copyChilds : Nat → Heap → List (String × Nat) → Option (Heap × List (String × Nat))
  | _, h, [] => some (h, [])
  | 0, _, _ :: _ => none
  | fuel + 1, h, (n, r) :: rest => do
      let (h1, r1) ← copyD fuel h r
      let (h2, rest1) ← copyChilds fuel h1 rest
      some (h2, (n, r1) :: rest1)
end

mutual
/-- Heap version of `Diagram.fill` (source lines 92-108): copy, then set the
fill color on a Polygon copy, do nothing on a Curve copy, and on a composite
node call `fill` on every child of the copy *discarding the result* — the
source's line 104 is `newd.children[c].fill(color);` with no assignment. -/
def fillD : Nat → String → Heap → Nat → Option (Heap × Nat)
  | 0, _, _, _ => none
  | fuel + 1, color, h, r => do
      let (h1, r1) ← copyD (fuel + 1) h r
      let o ← getD h1 r1
      match o.type with
      | DiagramType.Polygon =>
          some (setD h1 r1 (DObj.mk o.type o.children o.paths o.origin
            o.color_stroke (some color)), r1)
      | DiagramType.Curve => some (h1, r1)
      | DiagramType.Diagram => do
          let h2 ← fillChilds fuel color h1 o.children
          some (h2, r1)

/-- The child loop of `Diagram.fill` (source lines 103-105): the recursive
call's returned diagram is not stored anywhere. -/
def fillChilds : Nat → String → Heap → List (String × Nat) → Option Heap
  | _, _, h, [] => some h
  | 0, _, _, _ :: _ => none
  | fuel + 1, color, h, (_, r) :: rest => do
      let (h1, _) ← fillD fuel color h r
      fillChilds fuel color h1 rest
end

mutual
/-- Heap version of `Diagram.stroke` (source lines 114-130): same shape as
`fill`, but both Polygon and Curve copies get the stroke color; on a
composite node the recursive results are again discarded (source line 126). -/
def strokeD : Nat → String → Heap → Nat → Option (Heap × Nat)
  | 0, _, _, _ => none
  | fuel + 1, color, h, r => do
      let (h1, r1) ← copyD (fuel + 1) h r
      let o ← getD h1 r1
      match o.type with
      | DiagramType.Polygon =>
          some (setD h1 r1 (DObj.mk o.type o.children o.paths o.origin
            (some color) o.color_fill), r1)
      | DiagramType.Curve =>
          some (setD h1 r1 (DObj.mk o.type o.children o.paths o.origin
            (some color) o.color_fill), r1)
      | DiagramType.Diagram => do
          let h2 ← strokeChilds fuel color h1 o.children
          some (h2, r1)

/-- The child loop of `Diagram.stroke` (source lines 125-127), result
discarded. -/
def strokeChilds : Nat → String → Heap → List (String × Nat) → Option Heap
  | _, _, h, [] => some h
  | 0, _, _, _ :: _ => none
  | fuel + 1, color, h, (_, r) :: rest => do
      let (h1, _) ← strokeD fuel color h r
      strokeChilds fuel color h1 rest
end

mutual
/-- Heap version of `Diagram.translate` (source lines 181-193): copy, shift
the copy's origin, recursively translate the copy's children and paths and
store the returned references back into the copy. -/
def translateD : Nat → Vec2 → Heap → Nat → Option (Heap × Nat)
  | 0, _, _, _ => none
  | fuel + 1, v, h, r => do
      let (h1, r1) ← copyD (fuel + 1) h r
      let o ← getD h1 r1
      let (h2, cs) ← translateChildsH fuel v h1 o.children
      let (h3, ps2) ← mapPathsH (translatePathH v) h2 o.paths
      some (setD h3 r1 (DObj.mk o.type cs ps2 (o.origin.add v)
        o.color_stroke o.color_fill), r1)

/-- The child loop of `Diagram.translate` (source lines 185-187), results
assigned back. -/
def translateChildsH : Nat → Vec2 → Heap → List (String × Nat) →
    Option (Heap × List (String × Nat))
  | _, _, h, [] => some (h, [])
  | 0, _, _, _ :: _ => none
  | fuel + 1, v, h, (n, r) :: rest => do
      let (h1, r1) ← translateD fuel v h r
      let (h2, rest1) ← translateChildsH fuel v h1 rest
      some (h2, (n, r1) :: rest1)
end

/-- Heap version of `Diagram.position` (source lines 199-203): read the
receiver's origin, then translate by `v - origin`. -/
def positionD (fuel : Nat) (v : Vec2) (h : Heap) (r : Nat) : Option (Heap × Nat) := do
  let o ← getD h r
  translateD fuel (v.sub o.origin) h r

mutual
/-- Heap version of `Diagram.rotate` (source lines 210-224): copy, default an
undefined pivot to the copy's origin, then rotate the copy's children and
paths about that same pivot, storing the returned references back.  The
origin itself is not touched. -/
def rotateD (R : ℚ → Vec2 → Vec2) : Nat → ℚ → Option Vec2 → Heap → Nat →
    Option (Heap × Nat)
  | 0, _, _, _, _ => none
  | fuel + 1, angle, pivot, h, r => do
      let (h1, r1) ← copyD (fuel + 1) h r
      let o ← getD h1 r1
      let piv := pivot.getD o.origin
      let (h2, cs) ← rotateChildsH R fuel angle piv h1 o.children
      let (h3, ps2) ← mapPathsH (rotatePathH R angle piv) h2 o.paths
      some (setD h3 r1 (DObj.mk o.type cs ps2 o.origin
        o.color_stroke o.color_fill), r1)

/-- The child loop of `Diagram.rotate` (source lines 216-218): every child is
rotated about the already-defined pivot, results assigned back. -/
def rotateChildsH (R : ℚ → Vec2 → Vec2) : Nat → ℚ → Vec2 → Heap →
    List (String × Nat) → Option (Heap × List (String × Nat))
  | _, _, _, h, [] => some (h, [])
  | 0, _, _, _, _ :: _ => none
  | fuel + 1, angle, piv, h, (n, r) :: rest => do
      let (h1, r1) ← rotateD R fuel angle (some piv) h r
      let (h2, rest1) ← rotateChildsH R fuel angle piv h1 rest
      some (h2, (n, r1) :: rest1)
end

/-- The five tree-producing operations of the immutability claim. -/
inductive Op where
  | fill (color : String)
  | stroke (color : String)
  | translate (v : Vec2)
  | position (v : Vec2)
  | rotate (angle : ℚ) (pivot : Option Vec2)
deriving DecidableEq, Repr

/-- Dispatch of an operation to its heap interpreter. -/
def runOp (R : ℚ → Vec2 → Vec2) (op : Op) (fuel : Nat) (h : Heap) (r : Nat) :
    Option (Heap × Nat) :=
  match op with
  | Op.fill c => fillD fuel c h r
  | Op.stroke c => strokeD fuel c h r
  | Op.translate v => translateD fuel v h r
  | Op.position v => positionD fuel v h r
  | Op.rotate a p => rotateD R fuel a p h r

/-- The origin of the object stored at a reference, one of the observations
of the immutability claim. -/
def originAt (h : Heap) (r : Nat) : Option Vec2 := (getD h r).map DObj.origin

/-- All points of all paths of a heap object's paths map, in order. -/
def pathsPointsH (h : Heap) : List (String × Nat) → Option (List Vec2)
  | [] => some []
  | (_, r) :: rest => do
      let p ← getP h r
      let pts ← pathsPointsH h rest
      some (p.points ++ pts)

mutual
/-- Heap version of `Diagram.bounding_box` (source lines 136-175), the other
observation of the immutability claim. -/
def bboxAt : Nat → Heap → Nat → Option BBox
  | 0, _, _ => none
  | fuel + 1, h, r => do
      let o ← getD h r
      match o.type with
      | DiagramType.Diagram => bboxKidsH fuel h o.children emptyBox
      | _ => do
          let pts ← pathsPointsH h o.paths
          some (boxOfPoints pts)

/-- The child loop of the composite case of the heap `bounding_box`. -/
def bboxKidsH : Nat → Heap → List (String × Nat) → BBox → Option BBox
  | _, _, [], acc => some acc
  | 0, _, _ :: _, _ => none
  | fuel + 1, h, (_, r) :: rest, acc => do
      let bb ← bboxAt fuel h r
      bboxKidsH fuel h rest (unionBox acc bb)
end

/-- Well-formedness of a heap: every reference stored in any object is in
bounds. -/
def HeapWF (h : Heap) : Prop :=
  ∀ o ∈ h.ds, (∀ nc ∈ o.children, nc.2 < h.ds.length) ∧
    (∀ np ∈ o.paths, np.2 < h.ps.length)

instance (h : Heap) : Decidable (HeapWF h) := by
  unfold HeapWF
  infer_instance

/-- Heap extension: the heap only grew, and every object of the first heap is
unchanged (at the same reference) in the second.  This is the frame property
all the heap interpreters satisfy: they only allocate fresh objects and
overwrite freshly allocated ones. -/
structure HExt (h h' : Heap) : Prop where
  dsLe : h.ds.length ≤ h'.ds.length
  psLe : h.ps.length ≤ h'.ps.length
  dsEq : ∀ i, i < h.ds.length → h'.ds[i]? = h.ds[i]?
  psEq : ∀ i, i < h.ps.length → h'.ps[i]? = h.ps[i]?

theorem HExt.rfl (h : Heap) : HExt h h :=
  ⟨le_rfl, le_rfl, fun _ _ => Eq.refl _, fun _ _ => Eq.refl _⟩

theorem HExt.trans {h1 h2 h3 : Heap} (a : HExt h1 h2) (b : HExt h2 h3) : HExt h1 h3 :=
  ⟨a.dsLe.trans b.dsLe, a.psLe.trans b.psLe,
   fun i hi => (b.dsEq i (lt_of_lt_of_le hi a.dsLe)).trans (a.dsEq i hi),
   fun i hi => (b.psEq i (lt_of_lt_of_le hi a.psLe)).trans (a.psEq i hi)⟩

theorem hext_allocD (h : Heap) (o : DObj) : HExt h (allocD h o).1 := by
  refine ⟨?_, le_rfl, ?_, fun i _ => Eq.refl _⟩
  · simp [allocD]
  · intro i hi
    exact List.getElem?_append_left hi

theorem hext_allocP (h : Heap) (p : PObj) : HExt h (allocP h p).1 := by
  refine ⟨le_rfl, ?_, fun i _ => Eq.refl _, ?_⟩
  · simp [allocP]
  · intro i hi
    exact List.getElem?_append_left hi

theorem hext_setD {h h1 : Heap} {r : Nat} (a : HExt h h1) (hr : h.ds.length ≤ r)
    (o : DObj) : HExt h (setD h1 r o) := by
  refine ⟨?_, a.psLe, ?_, a.psEq⟩
  · simpa [setD] using a.dsLe
  · intro i hi
    have hne : r ≠ i := by omega
    show (h1.ds.set r o)[i]? = h.ds[i]?
    rw [List.getElem?_set_ne hne]
    exact a.dsEq i hi

theorem setD_ds_length (h : Heap) (r : Nat) (o : DObj) :
    (setD h r o).ds.length = h.ds.length := by
  simp [setD]

theorem allocD_ds_length (h : Heap) (o : DObj) :
    (allocD h o).1.ds.length = h.ds.length + 1 := by
  simp [allocD]

/-- Frame specification of a heap action: on success the heap is extended and
the returned reference is fresh. -/
def ActSpec (act : Heap → Nat → Option (Heap × Nat)) : Prop :=
  ∀ h r h' r', act h r = some (h', r') →
    HExt h h' ∧ h.ds.length ≤ r' ∧ r' < h'.ds.length

/-- Weaker frame specification used by the path actions, which only allocate
(leaving the diagram objects untouched). -/
def PActSpec (act : Heap → Nat → Option (Heap × Nat)) : Prop :=
  ∀ h r h' r', act h r = some (h', r') → HExt h h'

theorem copyPathH_spec : PActSpec copyPathH := by
  intro h r h' r' heq
  cases hp : getP h r with
  | none => simp [copyPathH, hp] at heq
  | some p =>
      simp only [copyPathH, hp, Option.bind_eq_bind, Option.some_bind, Option.some.injEq,
        Prod.mk.injEq, allocP] at heq
      obtain ⟨rfl, rfl⟩ := heq
      exact hext_allocP h _

theorem translatePathH_spec (v : Vec2) : PActSpec (translatePathH v) := by
  intro h r h' r' heq
  cases hp : getP h r with
  | none => simp [translatePathH, hp] at heq
  | some p =>
      simp only [translatePathH, hp, Option.bind_eq_bind, Option.some_bind, Option.some.injEq,
        Prod.mk.injEq, allocP] at heq
      obtain ⟨rfl, rfl⟩ := heq
      exact hext_allocP h _

theorem rotatePathH_spec (R : ℚ → Vec2 → Vec2) (angle : ℚ) (piv : Vec2) :
    PActSpec (rotatePathH R angle piv) := by
  intro h r h' r' heq
  cases hp : getP h r with
  | none => simp [rotatePathH, hp] at heq
  | some p =>
      simp only [rotatePathH, hp, Option.bind_eq_bind, Option.some_bind, Option.some.injEq,
        Prod.mk.injEq, allocP] at heq
      obtain ⟨rfl, rfl⟩ := heq
      exact hext_allocP h _

theorem mapPathsH_spec {act : Heap → Nat → Option (Heap × Nat)} (hact : PActSpec act) :
    ∀ (l : List (String × Nat)) (h h' : Heap) (l' : List (String × Nat)),
      mapPathsH act h l = some (h', l') → HExt h h' := by
  intro l
  induction l with
  | nil =>
      intro h h' l' heq
      simp only [mapPathsH, Option.some.injEq, Prod.mk.injEq] at heq
      obtain ⟨rfl, rfl⟩ := heq
      exact HExt.rfl h
  | cons nr rest ih =>
      intro h h' l' heq
      obtain ⟨n, r⟩ := nr
      cases hact1 : act h r with
      | none => simp [mapPathsH, hact1] at heq
      | some hr1 =>
          obtain ⟨h1, r1⟩ := hr1
          cases hrest : mapPathsH act h1 rest with
          | none => simp [mapPathsH, hact1, hrest] at heq
          | some hr2 =>
              obtain ⟨h2, rest1⟩ := hr2
              simp only [mapPathsH, hact1, hrest, Option.bind_eq_bind, Option.some_bind,
                Option.some.injEq, Prod.mk.injEq] at heq
              obtain ⟨rfl, rfl⟩ := heq
              exact (hact h r h1 r1 hact1).trans (ih h1 h2 rest1 hrest)

theorem copy_spec (fuel : Nat) :
    (∀ h r h' r', copyD fuel h r = some (h', r') →
       HExt h h' ∧ h.ds.length ≤ r' ∧ r' < h'.ds.length) ∧
    (∀ h l h' l', copyChilds fuel h l = some (h', l') → HExt h h') := by
  induction fuel with
  | zero =>
      constructor
      · intro h r h' r' heq
        simp [copyD] at heq
      · intro h l h' l' heq
        cases l with
        | nil =>
            simp only [copyChilds, Option.some.injEq, Prod.mk.injEq] at heq
            obtain ⟨rfl, rfl⟩ := heq
            exact HExt.rfl h
        | cons a rest =>
            obtain ⟨n, r⟩ := a
            simp [copyChilds] at heq
  | succ fuel ih =>
      constructor
      · intro h r h' r' heq
        cases ho : getD h r with
        | none => simp [copyD, ho] at heq
        | some o =>
            cases hcs : copyChilds fuel h o.children with
            | none => simp [copyD, ho, hcs] at heq
            | some hcs1 =>
                obtain ⟨h1, cs⟩ := hcs1
                cases hps : mapPathsH copyPathH h1 o.paths with
                | none => simp [copyD, ho, hcs, hps] at heq
                | some hps1 =>
                    obtain ⟨h2, ps2⟩ := hps1
                    simp only [copyD, ho, hcs, hps, Option.bind_eq_bind, Option.some_bind,
                      Option.some.injEq, Prod.mk.injEq, allocD] at heq
                    obtain ⟨rfl, rfl⟩ := heq
                    have e1 : HExt h h1 := ih.2 h o.children h1 cs hcs
                    have e2 : HExt h1 h2 := mapPathsH_spec copyPathH_spec o.paths h1 h2 ps2 hps
                    refine ⟨(e1.trans e2).trans (hext_allocD h2 _), (e1.trans e2).dsLe, ?_⟩
                    simp
      · intro h l h' l' heq
        cases l with
        | nil =>
            simp only [copyChilds, Option.some.injEq, Prod.mk.injEq] at heq
            obtain ⟨rfl, rfl⟩ := heq
            exact HExt.rfl h
        | cons a rest =>
            obtain ⟨n, r⟩ := a
            cases hc : copyD fuel h r with
            | none => simp [copyChilds, hc] at heq
            | some hc1 =>
                obtain ⟨h1, r1⟩ := hc1
                cases hrest : copyChilds fuel h1 rest with
                | none => simp [copyChilds, hc, hrest] at heq
                | some hr2 =>
                    obtain ⟨h2, rest1⟩ := hr2
                    simp only [copyChilds, hc, hrest, Option.bind_eq_bind, Option.some_bind,
                      Option.some.injEq, Prod.mk.injEq] at heq
                    obtain ⟨rfl, rfl⟩ := heq
                    exact ((ih.1 h r h1 r1 hc).1).trans (ih.2 h1 rest h2 rest1 hrest)

theorem fill_spec (fuel : Nat) :
    (∀ color h r h' r', fillD fuel color h r = some (h', r') →
       HExt h h' ∧ h.ds.length ≤ r' ∧ r' < h'.ds.length) ∧
    (∀ color h l h', fillChilds fuel color h l = some h' → HExt h h') := by
  induction fuel with
  | zero =>
      constructor
      · intro color h r h' r' heq
        simp [fillD] at heq
      · intro color h l h' heq
        cases l with
        | nil =>
            simp only [fillChilds, Option.some.injEq] at heq
            exact heq ▸ HExt.rfl h
        | cons a rest =>
            obtain ⟨n, r⟩ := a
            simp [fillChilds] at heq
  | succ fuel ih =>
      constructor
      · intro color h r h' r' heq
        cases hcp : copyD (fuel + 1) h r with
        | none => simp [fillD, hcp] at heq
        | some hc1 =>
            obtain ⟨h1, r1⟩ := hc1
            obtain ⟨e1, hr1, hr1lt⟩ := (copy_spec (fuel + 1)).1 h r h1 r1 hcp
            cases ho : getD h1 r1 with
            | none => simp [fillD, hcp, ho] at heq
            | some o =>
                cases hty : o.type with
                | Polygon =>
                    simp only [fillD, hcp, ho, hty, Option.bind_eq_bind, Option.some_bind,
                      Option.some.injEq, Prod.mk.injEq] at heq
                    obtain ⟨rfl, rfl⟩ := heq
                    refine ⟨hext_setD e1 hr1 _, hr1, ?_⟩
                    rw [setD_ds_length]
                    exact hr1lt
                | Curve =>
                    simp only [fillD, hcp, ho, hty, Option.bind_eq_bind, Option.some_bind,
                      Option.some.injEq, Prod.mk.injEq] at heq
                    obtain ⟨rfl, rfl⟩ := heq
                    exact ⟨e1, hr1, hr1lt⟩
                | Diagram =>
                    cases hfc : fillChilds fuel color h1 o.children with
                    | none => simp [fillD, hcp, ho, hty, hfc] at heq
                    | some h2 =>
                        simp only [fillD, hcp, ho, hty, hfc, Option.bind_eq_bind,
                          Option.some_bind, Option.some.injEq, Prod.mk.injEq] at heq
                        obtain ⟨rfl, rfl⟩ := heq
                        have e2 : HExt h1 h2 := ih.2 color h1 o.children h2 hfc
                        exact ⟨e1.trans e2, hr1, lt_of_lt_of_le hr1lt e2.dsLe⟩
      · intro color h l h' heq
        cases l with
        | nil =>
            simp only [fillChilds, Option.some.injEq] at heq
            exact heq ▸ HExt.rfl h
        | cons a rest =>
            obtain ⟨n, r⟩ := a
            cases hf : fillD fuel color h r with
            | none => simp [fillChilds, hf] at heq
            | some hf1 =>
                obtain ⟨h1, r1⟩ := hf1
                simp only [fillChilds, hf, Option.bind_eq_bind, Option.some_bind] at heq
                exact ((ih.1 color h r h1 r1 hf).1).trans (ih.2 color h1 rest h' heq)

theorem stroke_spec (fuel : Nat) :
    (∀ color h r h' r', strokeD fuel color h r = some (h', r') →
       HExt h h' ∧ h.ds.length ≤ r' ∧ r' < h'.ds.length) ∧
    (∀ color h l h', strokeChilds fuel color h l = some h' → HExt h h') := by
  induction fuel with
  | zero =>
      constructor
      · intro color h r h' r' heq
        simp [strokeD] at heq
      · intro color h l h' heq
        cases l with
        | nil =>
            simp only [strokeChilds, Option.some.injEq] at heq
            exact heq ▸ HExt.rfl h
        | cons a rest =>
            obtain ⟨n, r⟩ := a
            simp [strokeChilds] at heq
  | succ fuel ih =>
      constructor
      · intro color h r h' r' heq
        cases hcp : copyD (fuel + 1) h r with
        | none => simp [strokeD, hcp] at heq
        | some hc1 =>
            obtain ⟨h1, r1⟩ := hc1
            obtain ⟨e1, hr1, hr1lt⟩ := (copy_spec (fuel + 1)).1 h r h1 r1 hcp
            cases ho : getD h1 r1 with
            | none => simp [strokeD, hcp, ho] at heq
            | some o =>
                cases hty : o.type with
                | Polygon =>
                    simp only [strokeD, hcp, ho, hty, Option.bind_eq_bind, Option.some_bind,
                      Option.some.injEq, Prod.mk.injEq] at heq
                    obtain ⟨rfl, rfl⟩ := heq
                    refine ⟨hext_setD e1 hr1 _, hr1, ?_⟩
                    rw [setD_ds_length]
                    exact hr1lt
                | Curve =>
                    simp only [strokeD, hcp, ho, hty, Option.bind_eq_bind, Option.some_bind,
                      Option.some.injEq, Prod.mk.injEq] at heq
                    obtain ⟨rfl, rfl⟩ := heq
                    refine ⟨hext_setD e1 hr1 _, hr1, ?_⟩
                    rw [setD_ds_length]
                    exact hr1lt
                | Diagram =>
                    cases hfc : strokeChilds fuel color h1 o.children with
                    | none => simp [strokeD, hcp, ho, hty, hfc] at heq
                    | some h2 =>
                        simp only [strokeD, hcp, ho, hty, hfc, Option.bind_eq_bind,
                          Option.some_bind, Option.some.injEq, Prod.mk.injEq] at heq
                        obtain ⟨rfl, rfl⟩ := heq
                        have e2 : HExt h1 h2 := ih.2 color h1 o.children h2 hfc
                        exact ⟨e1.trans e2, hr1, lt_of_lt_of_le hr1lt e2.dsLe⟩
      · intro color h l h' heq
        cases l with
        | nil =>
            simp only [strokeChilds, Option.some.injEq] at heq
            exact heq ▸ HExt.rfl h
        | cons a rest =>
            obtain ⟨n, r⟩ := a
            cases hf : strokeD fuel color h r with
            | none => simp [strokeChilds, hf] at heq
            | some hf1 =>
                obtain ⟨h1, r1⟩ := hf1
                simp only [strokeChilds, hf, Option.bind_eq_bind, Option.some_bind] at heq
                exact ((ih.1 color h r h1 r1 hf).1).trans (ih.2 color h1 rest h' heq)

theorem translate_spec (fuel : Nat) :
    (∀ v h r h' r', translateD fuel v h r = some (h', r') →
       HExt h h' ∧ h.ds.length ≤ r' ∧ r' < h'.ds.length) ∧
    (∀ v h l h' l', translateChildsH fuel v h l = some (h', l') → HExt h h') := by
  induction fuel with
  | zero =>
      constructor
      · intro v h r h' r' heq
        simp [translateD] at heq
      · intro v h l h' l' heq
        cases l with
        | nil =>
            simp only [translateChildsH, Option.some.injEq, Prod.mk.injEq] at heq
            obtain ⟨rfl, rfl⟩ := heq
            exact HExt.rfl h
        | cons a rest =>
            obtain ⟨n, r⟩ := a
            simp [translateChildsH] at heq
  | succ fuel ih =>
      constructor
      · intro v h r h' r' heq
        cases hcp : copyD (fuel + 1) h r with
        | none => simp [translateD, hcp] at heq
        | some hc1 =>
            obtain ⟨h1, r1⟩ := hc1
            obtain ⟨e1, hr1, hr1lt⟩ := (copy_spec (fuel + 1)).1 h r h1 r1 hcp
            cases ho : getD h1 r1 with
            | none => simp [translateD, hcp, ho] at heq
            | some o =>
                cases hcs : translateChildsH fuel v h1 o.children with
                | none => simp [translateD, hcp, ho, hcs] at heq
                | some hcs1 =>
                    obtain ⟨h2, cs⟩ := hcs1
                    cases hps : mapPathsH (translatePathH v) h2 o.paths with
                    | none => simp [translateD, hcp, ho, hcs, hps] at heq
                    | some hps1 =>
                        obtain ⟨h3, ps2⟩ := hps1
                        simp only [translateD, hcp, ho, hcs, hps, Option.bind_eq_bind,
                          Option.some_bind, Option.some.injEq, Prod.mk.injEq] at heq
                        obtain ⟨rfl, rfl⟩ := heq
                        have e2 : HExt h1 h2 := ih.2 v h1 o.children h2 cs hcs
                        have e3 : HExt h2 h3 :=
                          mapPathsH_spec (translatePathH_spec v) o.paths h2 h3 ps2 hps
                        refine ⟨hext_setD (e1.trans (e2.trans e3)) hr1 _, hr1, ?_⟩
                        rw [setD_ds_length]
                        exact lt_of_lt_of_le hr1lt (e2.trans e3).dsLe
      · intro v h l h' l' heq
        cases l with
        | nil =>
            simp only [translateChildsH, Option.some.injEq, Prod.mk.injEq] at heq
            obtain ⟨rfl, rfl⟩ := heq
            exact HExt.rfl h
        | cons a rest =>
            obtain ⟨n, r⟩ := a
            cases ht : translateD fuel v h r with
            | none => simp [translateChildsH, ht] at heq
            | some ht1 =>
                obtain ⟨h1, r1⟩ := ht1
                cases hrest : translateChildsH fuel v h1 rest with
                | none => simp [translateChildsH, ht, hrest] at heq
                | some hr2 =>
                    obtain ⟨h2, rest1⟩ := hr2
                    simp only [translateChildsH, ht, hrest, Option.bind_eq_bind,
                      Option.some_bind, Option.some.injEq, Prod.mk.injEq] at heq
                    obtain ⟨rfl, rfl⟩ := heq
                    exact ((ih.1 v h r h1 r1 ht).1).trans (ih.2 v h1 rest h2 rest1 hrest)

theorem rotate_spec (R : ℚ → Vec2 → Vec2) (fuel : Nat) :
    (∀ angle pivot h r h' r', rotateD R fuel angle pivot h r = some (h', r') →
       HExt h h' ∧ h.ds.length ≤ r' ∧ r' < h'.ds.length) ∧
    (∀ angle piv h l h' l', rotateChildsH R fuel angle piv h l = some (h', l') →
       HExt h h') := by
  induction fuel with
  | zero =>
      constructor
      · intro angle pivot h r h' r' heq
        simp [rotateD] at heq
      · intro angle piv h l h' l' heq
        cases l with
        | nil =>
            simp only [rotateChildsH, Option.some.injEq, Prod.mk.injEq] at heq
            obtain ⟨rfl, rfl⟩ := heq
            exact HExt.rfl h
        | cons a rest =>
            obtain ⟨n, r⟩ := a
            simp [rotateChildsH] at heq
  | succ fuel ih =>
      constructor
      · intro angle pivot h r h' r' heq
        cases hcp : copyD (fuel + 1) h r with
        | none => simp [rotateD, hcp] at heq
        | some hc1 =>
            obtain ⟨h1, r1⟩ := hc1
            obtain ⟨e1, hr1, hr1lt⟩ := (copy_spec (fuel + 1)).1 h r h1 r1 hcp
            cases ho : getD h1 r1 with
            | none => simp [rotateD, hcp, ho] at heq
            | some o =>
                cases hcs : rotateChildsH R fuel angle (pivot.getD o.origin) h1 o.children with
                | none => simp [rotateD, hcp, ho, hcs] at heq
                | some hcs1 =>
                    obtain ⟨h2, cs⟩ := hcs1
                    cases hps : mapPathsH (rotatePathH R angle (pivot.getD o.origin)) h2 o.paths with
                    | none => simp [rotateD, hcp, ho, hcs, hps] at heq
                    | some hps1 =>
                        obtain ⟨h3, ps2⟩ := hps1
                        simp only [rotateD, hcp, ho, hcs, hps, Option.bind_eq_bind,
                          Option.some_bind, Option.some.injEq, Prod.mk.injEq] at heq
                        obtain ⟨rfl, rfl⟩ := heq
                        have e2 : HExt h1 h2 :=
                          ih.2 angle (pivot.getD o.origin) h1 o.children h2 cs hcs
                        have e3 : HExt h2 h3 :=
                          mapPathsH_spec (rotatePathH_spec R angle (pivot.getD o.origin))
                            o.paths h2 h3 ps2 hps
                        refine ⟨hext_setD (e1.trans (e2.trans e3)) hr1 _, hr1, ?_⟩
                        rw [setD_ds_length]
                        exact lt_of_lt_of_le hr1lt (e2.trans e3).dsLe
      · intro angle piv h l h' l' heq
        cases l with
        | nil =>
            simp only [rotateChildsH, Option.some.injEq, Prod.mk.injEq] at heq
            obtain ⟨rfl, rfl⟩ := heq
            exact HExt.rfl h
        | cons a rest =>
            obtain ⟨n, r⟩ := a
            cases ht : rotateD R fuel angle (some piv) h r with
            | none => simp [rotateChildsH, ht] at heq
            | some ht1 =>
                obtain ⟨h1, r1⟩ := ht1
                cases hrest : rotateChildsH R fuel angle piv h1 rest with
                | none => simp [rotateChildsH, ht, hrest] at heq
                | some hr2 =>
                    obtain ⟨h2, rest1⟩ := hr2
                    simp only [rotateChildsH, ht, hrest, Option.bind_eq_bind,
                      Option.some_bind, Option.some.injEq, Prod.mk.injEq] at heq
                    obtain ⟨rfl, rfl⟩ := heq
                    exact ((ih.1 angle (some piv) h r h1 r1 ht).1).trans
                      (ih.2 angle piv h1 rest h2 rest1 hrest)

theorem positionD_spec (fuel : Nat) (v : Vec2) : ActSpec (positionD fuel v) := by
  intro h r h' r' heq
  cases ho : getD h r with
  | none => simp [positionD, ho] at heq
  | some o =>
      simp only [positionD, ho, Option.bind_eq_bind, Option.some_bind] at heq
      exact (translate_spec fuel).1 (v.sub o.origin) h r h' r' heq

theorem runOp_spec (R : ℚ → Vec2 → Vec2) (op : Op) (fuel : Nat) :
    ActSpec (runOp R op fuel) := by
  cases op with
  | fill c => exact fun h r h' r' heq => (fill_spec fuel).1 c h r h' r' heq
  | stroke c => exact fun h r h' r' heq => (stroke_spec fuel).1 c h r h' r' heq
  | translate v => exact fun h r h' r' heq => (translate_spec fuel).1 v h r h' r' heq
  | position v => exact fun h r h' r' heq => positionD_spec fuel v h r h' r' heq
  | rotate a p => exact fun h r h' r' heq => (rotate_spec R fuel).1 a p h r h' r' heq

theorem pathsPointsH_frame {h h' : Heap}
    (hps : ∀ i, i < h.ps.length → h'.ps[i]? = h.ps[i]?) :
    ∀ l, (∀ np ∈ l, np.2 < h.ps.length) → pathsPointsH h' l = pathsPointsH h l := by
  intro l
  induction l with
  | nil => intro _; rfl
  | cons a rest ih =>
      intro hb
      obtain ⟨n, r⟩ := a
      have hr : r < h.ps.length := hb (n, r) (List.mem_cons_self _ _)
      have hg : getP h' r = getP h r := hps r hr
      simp only [pathsPointsH, hg, ih (fun np hnp => hb np (List.mem_cons_of_mem _ hnp))]

theorem bboxAt_frame {h h' : Heap} (hwf : HeapWF h)
    (hds : ∀ i, i < h.ds.length → h'.ds[i]? = h.ds[i]?)
    (hps : ∀ i, i < h.ps.length → h'.ps[i]? = h.ps[i]?) :
    ∀ fuel, (∀ r, r < h.ds.length → bboxAt fuel h' r = bboxAt fuel h r) ∧
      (∀ l acc, (∀ nc ∈ l, nc.2 < h.ds.length) →
        bboxKidsH fuel h' l acc = bboxKidsH fuel h l acc) := by
  intro fuel
  induction fuel with
  | zero =>
      constructor
      · intro r _
        rfl
      · intro l acc _
        cases l with
        | nil => rfl
        | cons a rest => rfl
  | succ fuel ih =>
      constructor
      · intro r hr
        have hg : getD h' r = getD h r := hds r hr
        cases ho : getD h r with
        | none => simp [bboxAt, hg, ho]
        | some o =>
            have homem : o ∈ h.ds := List.getElem?_mem ho
            obtain ⟨hoc, hop⟩ := hwf o homem
            cases hty : o.type with
            | Diagram => simp [bboxAt, hg, ho, hty, ih.2 o.children emptyBox hoc]
            | Polygon => simp [bboxAt, hg, ho, hty, pathsPointsH_frame hps o.paths hop]
            | Curve => simp [bboxAt, hg, ho, hty, pathsPointsH_frame hps o.paths hop]
      · intro l acc hb
        cases l with
        | nil => rfl
        | cons a rest =>
            obtain ⟨n, r⟩ := a
            have hr : r < h.ds.length := hb (n, r) (List.mem_cons_self _ _)
            have h1 : bboxAt fuel h' r = bboxAt fuel h r := ih.1 r hr
            cases hbb : bboxAt fuel h r with
            | none => simp [bboxKidsH, h1, hbb]
            | some bb =>
                simp [bboxKidsH, h1, hbb, ih.2 rest (unionBox acc bb)
                  (fun nc hnc => hb nc (List.mem_cons_of_mem _ hnc))]

/-- C2: for every well-formed heap, every diagram reference in it and every
operation among fill, stroke, translate, position and rotate, a successful run
of the operation leaves every pre-existing object (hence every descendant's
children, paths, points and colors) untouched, returns a freshly allocated
root, and preserves the original diagram's origin and bounding box as
observed before the call. -/
theorem c2_operations_preserve_original (R : ℚ → Vec2 → Vec2) (op : Op) (fuel : Nat)
    (h : Heap) (r : Nat) (h' : Heap) (r' : Nat)
    (hwf : HeapWF h) (hr : r < h.ds.length)
    (hrun : runOp R op fuel h r = some (h', r')) :
    (∀ i, i < h.ds.length → h'.ds[i]? = h.ds[i]?) ∧
    (∀ i, i < h.ps.length → h'.ps[i]? = h.ps[i]?) ∧
    h.ds.length ≤ r' ∧
    originAt h' r = originAt h r ∧
    (∀ bfuel, bboxAt bfuel h' r = bboxAt bfuel h r) := by
  obtain ⟨hext, hfr, -⟩ := runOp_spec R op fuel h r h' r' hrun
  refine ⟨hext.dsEq, hext.psEq, hfr, ?_, ?_⟩
  · unfold originAt getD
    rw [hext.dsEq r hr]
  · intro bfuel
    exact (bboxAt_frame hwf hext.dsEq hext.psEq bfuel).1 r hr

/-- Concrete heap for the immutability witness: a single Polygon leaf with no
paths at reference 0. -/
def witnessHeap : Heap :=
  ⟨[DObj.mk DiagramType.Polygon [] [] ⟨0, 0⟩ none none], []⟩

/-- The heap after running `fill "red"` on `witnessHeap`: the original object
is untouched and a filled copy has been allocated at reference 1. -/
def witnessHeap' : Heap :=
  ⟨[DObj.mk DiagramType.Polygon [] [] ⟨0, 0⟩ none none,
    DObj.mk DiagramType.Polygon [] [] ⟨0, 0⟩ none (some "red")], []⟩

theorem c2_witness :
    HeapWF witnessHeap ∧ 0 < witnessHeap.ds.length ∧
    runOp (fun _ q => q) (Op.fill "red") 2 witnessHeap 0 = some (witnessHeap', 1) ∧
    witnessHeap'.ds[0]? = witnessHeap.ds[0]? ∧
    witnessHeap.ds.length ≤ 1 ∧
    originAt witnessHeap' 0 = originAt witnessHeap 0 ∧
    bboxAt 1 witnessHeap' 0 = bboxAt 1 witnessHeap 0 := by
  have hrun : runOp (fun _ q => q) (Op.fill "red") 2 witnessHeap 0 =
      some (witnessHeap', 1) := by decide
  have hc := c2_operations_preserve_original (fun _ q => q) (Op.fill "red") 2
    witnessHeap 0 witnessHeap' 1 (by decide) (by decide) hrun
  exact ⟨by decide, by decide, hrun, hc.1 0 (by decide), hc.2.2.1,
    hc.2.2.2.1, hc.2.2.2.2 1⟩

/-- Concrete heap exhibiting the fill/stroke defect: a composite diagram at
reference 1 with one Polygon child at reference 0, everything unstyled. -/
def groupHeap : Heap :=
  ⟨[DObj.mk DiagramType.Polygon [] [] ⟨0, 0⟩ none none,
    DObj.mk DiagramType.Diagram [("p", 0)] [] ⟨0, 0⟩ none none], []⟩

/-- The fill and stroke colors of the named child of the diagram at a
reference, read through the heap. -/
def childColors (h : Heap) (r : Nat) (name : String) :
    Option (Option String × Option String) := do
  let o ← getD h r
  let cr ← lookupJS o.children name
  let co ← getD h cr
  some (co.color_fill, co.color_stroke)

/-- C1: running the source's `fill` (resp. `stroke`) on a composite diagram
with one Polygon child returns a tree whose child still has *no* fill (resp.
no stroke): the recursive calls of lines 104 and 126 discard their results, so
the copied children are never styled, contradicting the claim (and the
source's own comment "recursively set fill for all children"). -/
theorem c1_group_fill_stroke_discarded :
    ((fillD 3 "red" groupHeap 1).bind (fun hr => childColors hr.1 hr.2 "p")) =
      some (none, none) ∧
    ((strokeD 3 "blue" groupHeap 1).bind (fun hr => childColors hr.1 hr.2 "p")) =
      some (none, none) := by
  constructor
  · decide
  · decide

/-! ## Structural induction over diagram trees -/

theorem Diagram.inductionOn {P : Diagram → Prop}
    (step : ∀ t cs ps o s f, (∀ nc ∈ cs, P (Prod.snd nc)) → P (Diagram.mk t cs ps o s f)) :
    ∀ d, P d
  | .mk t cs ps o s f => step t cs ps o s f (fun nc h => Diagram.inductionOn step nc.2)
termination_by d => sizeOf d
decreasing_by
  have h1 := List.sizeOf_lt_of_mem h
  cases nc
  simp at h1 ⊢
  omega

/-! ## Translation (C3) and positioning (C4) -/

theorem translateChilds_allSubs (v : Vec2) :
    ∀ cs : List (String × Diagram),
      (∀ nc ∈ cs, (nc.2.translate v).allSubs.map Diagram.origin =
        nc.2.allSubs.map (fun e => e.origin.add v)) →
      (allSubsChilds (translateChilds cs v)).map Diagram.origin =
        (allSubsChilds cs).map (fun e => e.origin.add v) := by
  intro cs
  induction cs with
  | nil => intro _; rfl
  | cons a rest ih =>
      intro hm
      obtain ⟨n, c⟩ := a
      simp only [translateChilds, allSubsChilds, List.map_append]
      rw [hm (n, c) (List.mem_cons_self _ _),
        ih (fun nc h => hm nc (List.mem_cons_of_mem _ h))]

theorem translateChilds_allPoints (v : Vec2) :
    ∀ cs : List (String × Diagram),
      (∀ nc ∈ cs, (nc.2.translate v).allPoints =
        nc.2.allPoints.map (fun q => q.add v)) →
      allPointsChilds (translateChilds cs v) =
        (allPointsChilds cs).map (fun q => q.add v) := by
  intro cs
  induction cs with
  | nil => intro _; rfl
  | cons a rest ih =>
      intro hm
      obtain ⟨n, c⟩ := a
      simp only [translateChilds, allPointsChilds, List.map_append]
      rw [hm (n, c) (List.mem_cons_self _ _),
        ih (fun nc h => hm nc (List.mem_cons_of_mem _ h))]

theorem translate_allSubs_allPoints (v : Vec2) : ∀ d : Diagram,
    (d.translate v).allSubs.map Diagram.origin =
      d.allSubs.map (fun e => e.origin.add v) ∧
    (d.translate v).allPoints = d.allPoints.map (fun q => q.add v) := by
  intro d
  induction d using Diagram.inductionOn with
  | step t cs ps o s f ih =>
      constructor
      · simp only [Diagram.translate, Diagram.allSubs, List.map_cons, Diagram.origin]
        rw [translateChilds_allSubs v cs (fun nc h => (ih nc h).1)]
        rfl
      · simp only [Diagram.translate, Diagram.allPoints, List.map_append, List.map_map]
        rw [translateChilds_allPoints v cs (fun nc h => (ih nc h).2)]
        simp [Path.translate, List.map_flatten, List.map_map, Function.comp_def]

/-- C3: translating a diagram by `v` shifts the root origin by `v`, shifts
every descendant node's origin by the same `v`, and shifts every point of
every path of every node by the same `v`. -/
theorem c3_translate_shifts_everything (v : Vec2) (d : Diagram) :
    (d.translate v).origin = d.origin.add v ∧
    (d.translate v).allSubs.map Diagram.origin =
      d.allSubs.map (fun e => e.origin.add v) ∧
    (d.translate v).allPoints = d.allPoints.map (fun q => q.add v) := by
  refine ⟨?_, (translate_allSubs_allPoints v d).1, (translate_allSubs_allPoints v d).2⟩
  cases d with
  | mk t cs ps o s f => simp [Diagram.translate, Diagram.origin]

theorem translateChilds_zero :
    ∀ cs : List (String × Diagram),
      (∀ nc ∈ cs, nc.2.translate ⟨0, 0⟩ = nc.2) →
      translateChilds cs ⟨0, 0⟩ = cs := by
  intro cs
  induction cs with
  | nil => intro _; rfl
  | cons a rest ih =>
      intro hm
      obtain ⟨n, c⟩ := a
      simp only [translateChilds]
      rw [hm (n, c) (List.mem_cons_self _ _),
        ih (fun nc h => hm nc (List.mem_cons_of_mem _ h))]

theorem translate_zero : ∀ d : Diagram, d.translate ⟨0, 0⟩ = d := by
  intro d
  induction d using Diagram.inductionOn with
  | step t cs ps o s f ih =>
      simp only [Diagram.translate]
      rw [translateChilds_zero cs ih]
      simp [Path.translate, Vec2.add]

/-- C4: `position v` is `translate (v - origin)`, it puts the root origin at
exactly `v`, and it is idempotent: positioning twice at the same `v` gives
the same origin and the same bounding box as positioning once. -/
theorem c4_position_translate_idempotent (v : Vec2) (d : Diagram) :
    d.position v = d.translate (v.sub d.origin) ∧
    (d.position v).origin = v ∧
    ((d.position v).position v).origin = (d.position v).origin ∧
    ((d.position v).position v).bounding_box = (d.position v).bounding_box := by
  have h2 : (d.position v).origin = v := by
    obtain ⟨vx, vy⟩ := v
    cases d with
    | mk t cs ps o s f =>
        simp only [Diagram.position, Diagram.origin, Diagram.translate, Vec2.add, Vec2.sub,
          Vec2.mk.injEq]
        constructor <;> ring
  have h3 : (d.position v).position v = d.position v := by
    show (d.position v).translate (v.sub (d.position v).origin) = d.position v
    rw [h2]
    have hz : v.sub v = (⟨0, 0⟩ : Vec2) := by simp [Vec2.sub]
    rw [hz]
    exact translate_zero _
  exact ⟨rfl, h2, by rw [h3], by rw [h3]⟩

/-! ## Rotation (C5, C9) -/

theorem rotateChilds_allPoints (R : ℚ → Vec2 → Vec2) (a : ℚ) (p : Vec2) :
    ∀ cs : List (String × Diagram),
      (∀ nc ∈ cs, (nc.2.rotate R a (some p)).allPoints =
        nc.2.allPoints.map (fun q => (R a (q.sub p)).add p)) →
      allPointsChilds (rotateChilds R cs a p) =
        (allPointsChilds cs).map (fun q => (R a (q.sub p)).add p) := by
  intro cs
  induction cs with
  | nil => intro _; rfl
  | cons nc0 rest ih =>
      intro hm
      obtain ⟨n, c⟩ := nc0
      simp only [rotateChilds, allPointsChilds, List.map_append]
      rw [hm (n, c) (List.mem_cons_self _ _),
        ih (fun nc h => hm nc (List.mem_cons_of_mem _ h))]

theorem rotate_pivot_allPoints (R : ℚ → Vec2 → Vec2) (a : ℚ) (p : Vec2) :
    ∀ d : Diagram,
      (d.rotate R a (some p)).allPoints =
        d.allPoints.map (fun q => (R a (q.sub p)).add p) := by
  intro d
  induction d using Diagram.inductionOn with
  | step t cs ps o s f ih =>
      simp only [Diagram.rotate, Option.getD_some, Diagram.allPoints, List.map_append,
        List.map_map]
      rw [rotateChilds_allPoints R a p cs ih]
      simp [Path.rotate, List.map_flatten, List.map_map, Function.comp_def]

/-- C5: rotating with an explicitly supplied pivot `p` maps every path point
`q`, at every depth of the tree, to `R a (q - p) + p` (the same pivot is
threaded unchanged into every recursive child and path rotation), and
rotating with the pivot omitted equals rotating about the diagram's own
origin. -/
theorem c5_rotate_pivot (R : ℚ → Vec2 → Vec2) (a : ℚ) (p : Vec2) (d : Diagram) :
    (d.rotate R a (some p)).allPoints =
      d.allPoints.map (fun q => (R a (q.sub p)).add p) ∧
    d.rotate R a none = d.rotate R a (some d.origin) := by
  refine ⟨rotate_pivot_allPoints R a p d, ?_⟩
  cases d with
  | mk t cs ps o s f => simp [Diagram.rotate, Diagram.origin]

theorem rotateChilds_allSubs_origin (R : ℚ → Vec2 → Vec2) (a : ℚ) :
    ∀ (cs : List (String × Diagram)) (piv : Vec2),
      (∀ nc ∈ cs, ∀ po : Option Vec2,
        (nc.2.rotate R a po).allSubs.map Diagram.origin =
          nc.2.allSubs.map Diagram.origin) →
      (allSubsChilds (rotateChilds R cs a piv)).map Diagram.origin =
        (allSubsChilds cs).map Diagram.origin := by
  intro cs
  induction cs with
  | nil => intro _ _; rfl
  | cons nc0 rest ih =>
      intro piv hm
      obtain ⟨n, c⟩ := nc0
      simp only [rotateChilds, allSubsChilds, List.map_append]
      rw [hm (n, c) (List.mem_cons_self _ _) (some piv),
        ih piv (fun nc h => hm nc (List.mem_cons_of_mem _ h))]

/-- C9: rotation never moves any node's origin: for any pivot argument
(supplied or omitted), every node of the rotated tree has exactly the same
origin as the corresponding node of the input tree. -/
theorem c9_rotate_preserves_origins (R : ℚ → Vec2 → Vec2) (a : ℚ) (d : Diagram)
    (po : Option Vec2) :
    (d.rotate R a po).allSubs.map Diagram.origin = d.allSubs.map Diagram.origin := by
  induction d using Diagram.inductionOn generalizing po with
  | step t cs ps o s f ih =>
      simp only [Diagram.rotate, Diagram.allSubs, List.map_cons]
      rw [rotateChilds_allSubs_origin R a cs (po.getD o) (fun nc h po' => ih nc h po')]
      rfl

/-! ## Bounding boxes (C6) -/

/-- All points of all paths stored directly on a node, the geometry a leaf's
bounding box is computed from. -/
def leafPoints (d : Diagram) : List Vec2 :=
  (d.pathsList.map (fun np => np.2.points)).flatten

theorem unionBox_assoc (a b c : BBox) :
    unionBox (unionBox a b) c = unionBox a (unionBox b c) := by
  simp [unionBox, min_assoc, max_assoc]

theorem unionBox_empty_left (b : BBox) : unionBox emptyBox b = b := by
  simp [unionBox, emptyBox, min_top_left, max_bot_left]

theorem unionBox_empty_right (b : BBox) : unionBox b emptyBox = b := by
  simp [unionBox, emptyBox, min_top_right, max_bot_right]

theorem boxOfPoints_foldl (pts : List Vec2) :
    ∀ acc : BBox,
      pts.foldl
        (fun acc p =>
          ((min acc.1.1 (qE p.x), min acc.1.2 (qE p.y)),
           (max acc.2.1 (qE p.x), max acc.2.2 (qE p.y)))) acc =
      ((min acc.1.1 ((pts.map (fun p => qE p.x)).foldr min ⊤),
        min acc.1.2 ((pts.map (fun p => qE p.y)).foldr min ⊤)),
       (max acc.2.1 ((pts.map (fun p => qE p.x)).foldr max ⊥),
        max acc.2.2 ((pts.map (fun p => qE p.y)).foldr max ⊥))) := by
  induction pts with
  | nil =>
      intro acc
      simp [min_top_right, max_bot_right]
  | cons p rest ih =>
      intro acc
      simp only [List.foldl_cons, List.map_cons, List.foldr_cons, ih, min_assoc, max_assoc]

theorem boxOfPoints_eq (pts : List Vec2) :
    boxOfPoints pts =
      (((pts.map (fun p => qE p.x)).foldr min ⊤,
        (pts.map (fun p => qE p.y)).foldr min ⊤),
       ((pts.map (fun p => qE p.x)).foldr max ⊥,
        (pts.map (fun p => qE p.y)).foldr max ⊥)) := by
  rw [boxOfPoints, boxOfPoints_foldl pts emptyBox]
  simp [emptyBox, min_top_left, max_bot_left]

theorem boundChilds_eq :
    ∀ (cs : List (String × Diagram)) (acc : BBox),
      boundChilds cs acc =
        unionBox acc ((cs.map (fun nc => nc.2.bounding_box)).foldr unionBox emptyBox) := by
  intro cs
  induction cs with
  | nil =>
      intro acc
      simp [boundChilds, unionBox_empty_right]
  | cons nc0 rest ih =>
      intro acc
      obtain ⟨n, c⟩ := nc0
      simp only [boundChilds, List.map_cons, List.foldr_cons]
      rw [ih (unionBox acc c.bounding_box), unionBox_assoc]

theorem allPointsChilds_nil :
    ∀ cs : List (String × Diagram), allPointsChilds cs = [] →
      ∀ nc ∈ cs, nc.2.allPoints = [] := by
  intro cs
  induction cs with
  | nil => intro _ nc h; cases h
  | cons nc0 rest ih =>
      intro hnil nc hmem
      obtain ⟨n, c⟩ := nc0
      simp only [allPointsChilds, List.append_eq_nil] at hnil
      rcases List.mem_cons.mp hmem with h | h
      · rw [h]
        exact hnil.1
      · exact ih hnil.2 nc h

theorem foldr_unionBox_empty :
    ∀ bbs : List BBox, (∀ b ∈ bbs, b = emptyBox) →
      bbs.foldr unionBox emptyBox = emptyBox := by
  intro bbs
  induction bbs with
  | nil => intro _; rfl
  | cons b rest ih =>
      intro hm
      simp only [List.foldr_cons]
      rw [hm b (List.mem_cons_self _ _), ih (fun b' h => hm b' (List.mem_cons_of_mem _ h)),
        unionBox_empty_left]

/-- C6: the bounding box of a Polygon or Curve leaf is the componentwise
min/max over all points of all its paths; the bounding box of a composite
diagram is the componentwise union of its children's bounding boxes; and a
subtree with no geometry at all yields the degenerate box
`((+Infinity, +Infinity), (-Infinity, -Infinity))`. -/
theorem c6_bounding_box_shape (d : Diagram) :
    (d.type ≠ DiagramType.Diagram →
       d.bounding_box =
         ((((leafPoints d).map (fun p => qE p.x)).foldr min ⊤,
           ((leafPoints d).map (fun p => qE p.y)).foldr min ⊤),
          (((leafPoints d).map (fun p => qE p.x)).foldr max ⊥,
           ((leafPoints d).map (fun p => qE p.y)).foldr max ⊥))) ∧
    (d.type = DiagramType.Diagram →
       d.bounding_box =
         (d.childrenList.map (fun nc => nc.2.bounding_box)).foldr unionBox emptyBox) ∧
    (d.allPoints = [] → d.bounding_box = emptyBox) := by
  refine ⟨?_, ?_, ?_⟩
  · intro hne
    cases d with
    | mk t cs ps o s f =>
        cases t with
        | Diagram => exact absurd rfl hne
        | Polygon =>
            show boxOfPoints ((ps.map (fun np => np.2.points)).flatten) = _
            rw [boxOfPoints_eq]
            rfl
        | Curve =>
            show boxOfPoints ((ps.map (fun np => np.2.points)).flatten) = _
            rw [boxOfPoints_eq]
            rfl
  · intro hty
    cases d with
    | mk t cs ps o s f =>
        cases t with
        | Polygon => cases hty
        | Curve => cases hty
        | Diagram =>
            show boundChilds cs emptyBox = _
            rw [boundChilds_eq cs emptyBox, unionBox_empty_left]
            rfl
  · induction d using Diagram.inductionOn with
    | step t cs ps o s f ih =>
        intro hnil
        simp only [Diagram.allPoints, List.append_eq_nil] at hnil
        cases t with
        | Polygon =>
            show boxOfPoints ((ps.map (fun np => np.2.points)).flatten) = emptyBox
            rw [hnil.1]
            rfl
        | Curve =>
            show boxOfPoints ((ps.map (fun np => np.2.points)).flatten) = emptyBox
            rw [hnil.1]
            rfl
        | Diagram =>
            show boundChilds cs emptyBox = emptyBox
            rw [boundChilds_eq cs emptyBox, unionBox_empty_left]
            refine foldr_unionBox_empty _ ?_
            intro b hb
            obtain ⟨nc, hnc, rfl⟩ := List.mem_map.mp hb
            exact ih nc hnc (allPointsChilds_nil cs hnil.2 nc hnc)

/-- A concrete Polygon leaf with one two-point path, for the bounding box
witness. -/
def leafExample : Diagram :=
  Diagram.mk DiagramType.Polygon [] [("a", ⟨[⟨0, 0⟩, ⟨1, 2⟩]⟩)] ⟨0, 0⟩ none none

/-- A concrete composite diagram with one child, for the bounding box
witness. -/
def groupExample : Diagram :=
  Diagram.mk DiagramType.Diagram [("c", leafExample)] [] ⟨0, 0⟩ none none

/-- A concrete composite diagram with no geometry at all. -/
def emptyExample : Diagram :=
  Diagram.mk DiagramType.Diagram [] [] ⟨0, 0⟩ none none

theorem c6_witness :
    leafExample.type ≠ DiagramType.Diagram ∧
    leafExample.bounding_box = ((qE 0, qE 0), (qE 1, qE 2)) ∧
    groupExample.type = DiagramType.Diagram ∧
    groupExample.bounding_box =
      (groupExample.childrenList.map (fun nc => nc.2.bounding_box)).foldr
        unionBox emptyBox ∧
    emptyExample.allPoints = [] ∧
    emptyExample.bounding_box = emptyBox := by
  have hall : emptyExample.allPoints = [] := by
    simp [emptyExample, Diagram.allPoints, allPointsChilds]
  refine ⟨by decide, ?_, rfl, (c6_bounding_box_shape groupExample).2.1 rfl, hall,
    (c6_bounding_box_shape emptyExample).2.2 hall⟩
  have h1 := (c6_bounding_box_shape leafExample).1 (by decide)
  rw [h1]
  decide

/-! ## Polygon construction (C7) -/

theorem insertJS_notmem {α : Type} (m : List (String × α)) (k : String) (v : α)
    (hk : k ∉ m.map Prod.fst) : insertJS m k v = m ++ [(k, v)] := by
  induction m with
  | nil => rfl
  | cons a rest ih =>
      obtain ⟨k', v'⟩ := a
      simp only [List.map_cons, List.mem_cons] at hk
      push_neg at hk
      simp only [insertJS]
      rw [if_neg (fun he => hk.1 he.symm), ih hk.2]
      rfl

theorem assignJS_fresh {α : Type} :
    ∀ (names : List String) (items : List α) (m : List (String × α)),
      names.length = items.length → names.Nodup →
      (∀ k ∈ names, k ∉ m.map Prod.fst) →
      assignJS m items names = m ++ names.zip items := by
  intro names
  induction names with
  | nil =>
      intro items m hlen _ _
      cases items with
      | nil => simp [assignJS]
      | cons v vs => simp at hlen
  | cons n0 ns ih =>
      intro items m hlen hnd hfr
      cases items with
      | nil => simp at hlen
      | cons v vs =>
          simp only [List.length_cons] at hlen
          have hnd' := List.nodup_cons.mp hnd
          simp only [assignJS, List.zip_cons_cons]
          rw [insertJS_notmem m n0 v (hfr n0 (List.mem_cons_self _ _))]
          rw [ih vs (m ++ [(n0, v)]) (by omega) hnd'.2 ?_]
          · simp
          · intro k hk
            rw [List.map_append, List.mem_append]
            push_neg
            constructor
            · exact hfr k (List.mem_cons_of_mem _ hk)
            · intro hcon
              simp only [List.map_cons, List.map_nil, List.mem_singleton] at hcon
              exact absurd (hcon ▸ hk) hnd'.1

theorem segPaths_length (points : List Vec2) :
    (segPaths points).length = points.length - 1 := by
  simp only [segPaths, List.length_map, List.length_zip, List.length_tail]
  omega

theorem finalNames_length (points : List Vec2) (names : List String) :
    (finalNames points names).length = (segPaths points).length := by
  simp only [finalNames, defaultNames, List.length_append, List.length_take,
    List.length_drop, List.length_map, List.length_range]
  omega

/-- C7 (amended): `polygon` fails with the validation error exactly when fewer
than 3 points are supplied; with at least 3 points it returns a Polygon node
whose paths map pairs the effective names (the supplied prefix followed by the
remaining defaults `path0, path1, ...`) with the `len(points)-1` consecutive
two-point segments, with no closing segment — provided the effective names are
pairwise distinct.  (When names collide, the object-key assignment silently
keeps only the last path per name; see the counterexample.) -/
theorem c7_polygon_paths (points : List Vec2) (names : List String) :
    (points.length < 3 →
      polygon points names = Except.error "Polygon must have at least 3 points") ∧
    (3 ≤ points.length → ∃ d, polygon points names = Except.ok d) ∧
    (3 ≤ points.length → (finalNames points names).Nodup →
      polygon points names = Except.ok (Diagram.mk DiagramType.Polygon []
        ((finalNames points names).zip (segPaths points)) ⟨0, 0⟩ none none) ∧
      (finalNames points names).length = points.length - 1 ∧
      (segPaths points).length = points.length - 1) := by
  refine ⟨?_, ?_, ?_⟩
  · intro hlt
    rw [polygon, if_neg (by omega)]
  · intro h3
    rw [polygon, if_pos h3]
    simp only [Diagram.add_paths]
    rw [if_neg (by simp)]
    exact ⟨_, rfl⟩
  · intro h3 hnd
    refine ⟨?_, ?_, segPaths_length points⟩
    · rw [polygon, if_pos h3]
      simp only [Diagram.add_paths]
      rw [if_neg (by simp)]
      rw [assignJS_fresh (finalNames points names) (segPaths points) []
        (finalNames_length points names) hnd (by simp)]
      rw [List.nil_append]
    · rw [finalNames_length]
      exact segPaths_length points

/-- C7 counterexample: with 3 points and the supplied name "path1" (which
collides with the default name of the second segment), the returned Polygon
contains only 1 path, not `len(points)-1 = 2`: the second segment silently
overwrites the first under the shared key. -/
theorem c7_counterexample :
    (polygon [⟨0, 0⟩, ⟨1, 0⟩, ⟨0, 1⟩] ["path1"]).map (fun d => d.pathsList.length) =
      Except.ok 1 ∧
    ([(⟨0, 0⟩ : Vec2), ⟨1, 0⟩, ⟨0, 1⟩].length - 1) = 2 := by
  constructor
  · rfl
  · decide

theorem c7_witness :
    3 ≤ ([⟨0, 0⟩, ⟨1, 0⟩, ⟨0, 1⟩] : List Vec2).length ∧
    (finalNames [⟨0, 0⟩, ⟨1, 0⟩, ⟨0, 1⟩] []).Nodup ∧
    polygon [⟨0, 0⟩, ⟨1, 0⟩, ⟨0, 1⟩] [] = Except.ok (Diagram.mk DiagramType.Polygon []
      ((finalNames [⟨0, 0⟩, ⟨1, 0⟩, ⟨0, 1⟩] []).zip
        (segPaths [⟨0, 0⟩, ⟨1, 0⟩, ⟨0, 1⟩])) ⟨0, 0⟩ none none) ∧
    (finalNames [⟨0, 0⟩, ⟨1, 0⟩, ⟨0, 1⟩] []).length = 2 ∧
    (segPaths ([⟨0, 0⟩, ⟨1, 0⟩, ⟨0, 1⟩] : List Vec2)).length = 2 ∧
    polygon [⟨0, 0⟩, ⟨1, 0⟩] [] =
      Except.error "Polygon must have at least 3 points" := by
  have h := (c7_polygon_paths [⟨0, 0⟩, ⟨1, 0⟩, ⟨0, 1⟩] []).2.2 (by decide) (by decide)
  exact ⟨by decide, by decide, h.1, h.2.1, h.2.2,
    (c7_polygon_paths [⟨0, 0⟩, ⟨1, 0⟩] []).1 (by decide)⟩

/-! ## Parametric path evaluation (C8) -/

/-- C8: `get_parametric_point` fails with the unsupported-operation error
exactly when the path has more than 2 points; otherwise, on a path with first
point `s` and last point `e`, it returns `s + t * (e - s)`. -/
theorem c8_get_parametric_point (pp : Path) (t : ℚ) :
    (pp.get_parametric_point t =
        Except.error "Get Parametric Point For n>2 is Not Implemented yet" ↔
      2 < pp.points.length) ∧
    (∀ s e, pp.points.head? = some s → pp.points.getLast? = some e →
      pp.points.length ≤ 2 →
      pp.get_parametric_point t = Except.ok (s.add ((e.sub s).scale t))) := by
  constructor
  · by_cases h2 : 2 < pp.points.length
    · simp [Path.get_parametric_point, if_pos h2, h2]
    · simp only [Path.get_parametric_point, if_neg h2]
      cases hl : pp.points.getLast? with
      | none =>
          cases hh : pp.points.head? with
          | none => simp [h2]
          | some s => simp [h2]
      | some e =>
          cases hh : pp.points.head? with
          | none => simp [h2]
          | some s => simp [h2]
  · intro s e hh hl hle
    rw [Path.get_parametric_point, if_neg (by omega), hl, hh]

theorem c8_witness :
    Path.get_parametric_point ⟨[⟨0, 0⟩, ⟨4, 2⟩]⟩ (1/2) = Except.ok ⟨2, 1⟩ ∧
    Path.get_parametric_point ⟨[⟨0, 0⟩, ⟨1, 0⟩, ⟨4, 2⟩]⟩ (1/2) =
      Except.error "Get Parametric Point For n>2 is Not Implemented yet" := by
  constructor
  · have h := (c8_get_parametric_point ⟨[⟨0, 0⟩, ⟨4, 2⟩]⟩ (1/2)).2
      ⟨0, 0⟩ ⟨4, 2⟩ rfl rfl (by decide)
    rw [h]
    norm_num [Vec2.add, Vec2.sub, Vec2.scale]
  · exact (c8_get_parametric_point ⟨[⟨0, 0⟩, ⟨1, 0⟩, ⟨4, 2⟩]⟩ (1/2)).1.mpr (by decide)

/-! ## Name collisions in add_childs / add_paths (C10) -/

theorem lookupJS_insertJS {α : Type} (m : List (String × α)) (k : String) (v : α)
    (n : String) :
    lookupJS (insertJS m k v) n = if k = n then some v else lookupJS m n := by
  induction m with
  | nil => simp [insertJS, lookupJS]
  | cons a rest ih =>
      obtain ⟨k', v'⟩ := a
      by_cases hk : k' = k
      · subst hk
        by_cases hn : k' = n
        · subst hn
          simp [insertJS, lookupJS]
        · simp [insertJS, lookupJS, hn]
      · by_cases hn : k' = n
        · subst hn
          have : k ≠ k' := fun he => hk he.symm
          simp [insertJS, lookupJS, hk, this]
        · simp [insertJS, lookupJS, hk, hn, ih]

theorem lookupJS_assignJS {α : Type} :
    ∀ (items : List α) (names : List String) (m : List (String × α)) (n : String),
      names.length = items.length →
      lookupJS (assignJS m items names) n =
        (lastVal (names.zip items) n).or (lookupJS m n) := by
  intro items
  induction items with
  | nil =>
      intro names m n hlen
      cases names with
      | nil => simp [assignJS, lastVal]
      | cons n0 ns => simp at hlen
  | cons v vs ih =>
      intro names m n hlen
      cases names with
      | nil => simp at hlen
      | cons n0 ns =>
          simp only [List.length_cons] at hlen
          simp only [assignJS, List.zip_cons_cons]
          rw [ih ns (insertJS m n0 v) n (by omega)]
          cases hl : lastVal (ns.zip vs) n with
          | some w => simp [lastVal, hl]
          | none =>
              simp only [lastVal, hl]
              rw [lookupJS_insertJS]
              by_cases hn : n0 = n
              · simp [hn, Option.or]
              · simp [hn, Option.or]

/-- C10: `add_childs` and `add_paths` resolve name collisions by
last-write-wins without raising: on every node (composite nodes included,
the kind that carries children) `add_childs` makes the node map each name to
the last entry supplied for it when the name occurs among the supplied names,
and to its previous value otherwise (so a supplied name equal to an existing
one silently replaces it); `add_paths` does the same for paths and succeeds
on every non-composite node (its only type check, source line 58, has
nothing to do with name collisions). -/
theorem c10_add_last_write_wins (d : Diagram) (childs : List Diagram)
    (cnames : List String) (paths : List Path) (pnames : List String) (n : String)
    (hc : cnames.length = childs.length) (hp : pnames.length = paths.length) :
    (lookupJS (d.add_childs childs cnames).childrenList n =
       (lastVal (cnames.zip childs) n).or (lookupJS d.childrenList n)) ∧
    (d.type ≠ DiagramType.Diagram →
      ∃ d', d.add_paths paths pnames = Except.ok d' ∧
        lookupJS d'.pathsList n =
          (lastVal (pnames.zip paths) n).or (lookupJS d.pathsList n)) := by
  cases d with
  | mk t cs ps o s f =>
      constructor
      · simp only [Diagram.add_childs, Diagram.childrenList]
        exact lookupJS_assignJS childs cnames cs n hc
      · intro ht
        refine ⟨Diagram.mk t cs (assignJS ps paths pnames) o s f, ?_, ?_⟩
        · simp only [Diagram.add_paths]
          rw [if_neg (by simpa [Diagram.type] using ht)]
        · simp only [Diagram.pathsList]
          exact lookupJS_assignJS paths pnames ps n hp

/-- First path value for the collision witness. -/
def pathA : Path := ⟨[⟨0, 0⟩]⟩

/-- Second path value for the collision witness. -/
def pathB : Path := ⟨[⟨1, 1⟩]⟩

/-- A leaf node already carrying a path named "a", for the collision
witness. -/
def collisionNode : Diagram :=
  Diagram.mk DiagramType.Curve [] [("a", pathA)] ⟨0, 0⟩ none none

/-- Children for the composite-node collision witness: an initial child and
two distinguishable replacements supplied under the same name. -/
def childX : Diagram := Diagram.mk DiagramType.Polygon [] [] ⟨0, 0⟩ none none

def childY : Diagram := Diagram.mk DiagramType.Curve [] [] ⟨1, 1⟩ none none

def childZ : Diagram := Diagram.mk DiagramType.Curve [] [] ⟨2, 2⟩ none none

/-- A composite node already carrying a child named "a", for the
`add_childs` collision witness. -/
def groupNode : Diagram :=
  Diagram.mk DiagramType.Diagram [("a", childX)] [] ⟨0, 0⟩ none none

theorem c10_witness :
    (["a", "a"] : List String).length = ([childY, childZ] : List Diagram).length ∧
    (["a", "a"] : List String).length = ([pathA, pathB] : List Path).length ∧
    groupNode.type = DiagramType.Diagram ∧
    lookupJS groupNode.childrenList "a" = some childX ∧
    lookupJS (groupNode.add_childs [childY, childZ] ["a", "a"]).childrenList "a" =
      some childZ ∧
    collisionNode.type ≠ DiagramType.Diagram ∧
    (∃ d', collisionNode.add_paths [pathA, pathB] ["a", "a"] = Except.ok d' ∧
       lookupJS d'.pathsList "a" = some pathB) := by
  have h1 := c10_add_last_write_wins groupNode [childY, childZ] ["a", "a"] [] [] "a"
    rfl rfl
  have h2 := c10_add_last_write_wins collisionNode [] [] [pathA, pathB] ["a", "a"] "a"
    rfl rfl
  refine ⟨rfl, rfl, rfl, rfl, ?_, by decide, ?_⟩
  · rw [h1.1]
    simp [lastVal, List.zip_cons_cons]
  · obtain ⟨d', hok, hlook⟩ := h2.2 (by decide)
    refine ⟨d', hok, ?_⟩
    rw [hlook]
    simp [lastVal, List.zip_cons_cons]

end Diagramatics
